import Mathlib

/-!
Verification of the CM-block detection pipeline of `cm-detector` (`src/main.rs`).

Modelling conventions for the shallow embedding:
* Rust `i64` is modelled by `Int` (the program works with millisecond
  timestamps far below the `i64` range, so wrap-around is not modelled);
  Rust integer division `/` truncates toward zero and is modelled by
  `Int.tdiv`.
* Rust `f64` is modelled by `ℚ` with exact arithmetic.  Every `f64` value the
  program computes is obtained from integers by `/ 1000.0`, `* 1000.0`,
  `/ 15.0`, sums and differences; for the magnitudes involved the `f64`
  results are within a relative error of a few ulps of the exact rationals
  and all threshold comparisons and roundings performed by the program are
  decided identically (the program never compares values that are closer to
  a threshold than the `f64` error).  `f64::round` rounds half away from
  zero while Mathlib's `round` rounds half up; the two differ only on
  negative half-integer ties, and every place the program rounds either has
  a non-negative argument or clamps the result to at least 1, so the two
  agree there (see `coarse_unit_count`).
* Rust `Vec<T>` is modelled by `List T`; indexing `v[i]` (which the program
  only performs in bounds) is modelled by `List.getD` with a default value.
* The stdin byte stream is modelled as a `List Char` restricted to the
  Unicode code points; the lossy UTF-8 decoding step is not modelled.
-/

namespace CmDetector

section CmDetectorDev

/-- Constant `TOLERANCE_MS` of the source. -/
def TOLERANCE_MS : Int := 500

/-- Constant `START_OFFSET_MIN_MS` of the source. -/
def START_OFFSET_MIN_MS : Int := 2000

/-- Constant `START_OFFSET_MAX_MS` of the source. -/
def START_OFFSET_MAX_MS : Int := 8000

/-- Constant `MIN_BLOCK_DURATION_SEC` of the source (an `f64`, modelled as `ℚ`). -/
def MIN_BLOCK_DURATION_SEC : ℚ := 60

/-- Constant `MAX_BLOCK_DURATION_SEC` of the source (an `f64`, modelled as `ℚ`). -/
def MAX_BLOCK_DURATION_SEC : ℚ := 360

/-- Constant `MIN_STANDARD_UNITS` of the source (a `usize`). -/
def MIN_STANDARD_UNITS : Nat := 2

/-- Constant `MAX_STANDARD_UNITS` of the source. -/
def MAX_STANDARD_UNITS : Int := 5

/-- Constant `STANDARD_UNIT_SEC` of the source (an `f64`, modelled as `ℚ`). -/
def STANDARD_UNIT_SEC : ℚ := 15

/-- Constant `SHORT_UNITS` of the source (an `[f64; 2]`, modelled as `List ℚ`). -/
def SHORT_UNITS : List ℚ := [5, 10]

/-- Struct `SilenceSegment` of the source. -/
structure SilenceSegment where
  start_ms : Int
  end_ms : Int
  duration_ms : Int
deriving DecidableEq

instance : Inhabited SilenceSegment := ⟨⟨0, 0, 0⟩⟩

/-- Struct `Range` of the source.  The source's field `end` is a Lean
keyword, so it is called `stop` here. -/
structure Range where
  start : Int
  stop : Int
deriving DecidableEq

instance : Inhabited Range := ⟨⟨0, 0⟩⟩

/-- Method `Range::new` of the source. -/
def Range.new (start stop : Int) : Range := ⟨start, stop⟩

/-- Method `Range::intersect` of the source: intersection of two closed
integer ranges, `none` when empty. -/
def Range.intersect (self other : Range) : Option Range :=
  let start := max self.start other.start
  let stop := min self.stop other.stop
  if start ≤ stop then some (Range.new start stop) else none

/-- Method `Range::offset` of the source: shift both endpoints. -/
def Range.offset (self : Range) (offset_ms : Int) : Range :=
  Range.new (self.start + offset_ms) (self.stop + offset_ms)

/-- Struct `CmCandidate` of the source (`duration_sec` is an `f64`,
modelled as `ℚ`). -/
structure CmCandidate where
  start_ms : Int
  end_ms : Int
  duration_sec : ℚ
  is_standard : Bool
deriving DecidableEq

/-- Struct `CmBlock` of the source. -/
structure CmBlock where
  start_ms : Int
  end_ms : Int
  duration_sec : ℚ
  segments : List CmCandidate
deriving DecidableEq

/-- Struct `SilenceSegmentOutput` of the source. -/
structure SilenceSegmentOutput where
  start_ms : Int
  end_ms : Int
  duration_ms : Int
deriving DecidableEq

/-- Struct `OutputJson` of the source. -/
structure OutputJson where
  input_file : String
  start_offset_ms : Option Int
  cm_blocks : List CmBlock
  silence_segments : List SilenceSegmentOutput
deriving DecidableEq

/-- The expression `(start_ms + end_ms) / 2` (Rust `i64` division truncates
toward zero), inlined several times in the source for a `SilenceSegment`. -/
def centerS (s : SilenceSegment) : Int := Int.tdiv (s.start_ms + s.end_ms) 2

/-- The expression `(range.start + range.end) / 2`, inlined in the source
for a `Range` (lines computing `prev_center` and `curr_center`). -/
def centerR (r : Range) : Int := Int.tdiv (r.start + r.stop) 2

/-- The range `[s.start_ms, s.end_ms]` of a silence, as built by
`Range::new(seg.start_ms, seg.end_ms)` in the source. -/
def rangeOf (s : SilenceSegment) : Range := Range.new s.start_ms s.end_ms

/-- Function `detect_start_offset_ms` of the source: the center of the first
silence whose center lies in the window `[2000, 8000]`. -/
def detect_start_offset_ms : List SilenceSegment → Option Int
  | [] => none
  | seg :: rest =>
    let center_ms := centerS seg
    if START_OFFSET_MIN_MS ≤ center_ms ∧ center_ms ≤ START_OFFSET_MAX_MS then
      some center_ms
    else
      detect_start_offset_ms rest

/-- Function `coarse_unit_count` of the source: `round(gap_sec / 15)`
clamped to at least 1; `none` above `MAX_STANDARD_UNITS`.  (Rust rounds
half away from zero, Mathlib's `round` rounds half up; they differ only on
negative half-integer ties, and there the clamp `max · 1` makes the results
equal, so this translation is extensionally faithful.) -/
def coarse_unit_count (gap_ms : Int) : Option Int :=
  let gap_sec : ℚ := (gap_ms : ℚ) / 1000
  let unit_count : Int := round (gap_sec / STANDARD_UNIT_SEC)
  let unit_count := max unit_count 1
  if MAX_STANDARD_UNITS < unit_count then none else some unit_count

/-- Function `expected_interval_ms` of the source.  The Rust expression
`(units as f64 * 15.0 * 1000.0) as i64` is exact for `units ≤ 5`. -/
def expected_interval_ms (gap_ms : Int) : Option Int :=
  (coarse_unit_count gap_ms).map (fun units => units * 15000)

/-- Function `is_short_unit` of the source: within 0.5 s of 5 s or 10 s. -/
def is_short_unit (duration_sec : ℚ) : Bool :=
  let tolerance_sec : ℚ := (TOLERANCE_MS : ℚ) / 1000
  SHORT_UNITS.any (fun unit => decide (|duration_sec - unit| ≤ tolerance_sec))

/-- The standard-unit target range of one chainer step: the hull of
`prev_range.offset(expected_ms - TOLERANCE_MS)` and
`prev_range.offset(expected_ms + TOLERANCE_MS)` (source lines building
`target_range`). -/
def std_target_range (prev_range : Range) (expected_ms : Int) : Range :=
  let expected_range_low := prev_range.offset (expected_ms - TOLERANCE_MS)
  let expected_range_high := prev_range.offset (expected_ms + TOLERANCE_MS)
  Range.new expected_range_low.start expected_range_high.stop

/-- The short-unit target range of one chainer step (source lines building
`short_target`). -/
def short_target_range (prev_range : Range) (short_expected_ms : Int) : Range :=
  let short_range_low := prev_range.offset (short_expected_ms - TOLERANCE_MS)
  let short_range_high := prev_range.offset (short_expected_ms + TOLERANCE_MS)
  Range.new short_range_low.start short_range_high.stop

/-- Function `try_make_block_range_based` of the source: turn a closed chain
into a provisional `CmBlock` (endpoints are the centers of the first and
last chained silences; only the `0 < duration ≤ 360` sanity guard is
applied). -/
def try_make_block_range_based (chain_segments : List (Nat × Nat × Bool))
    (silence_segments : List SilenceSegment) : Option CmBlock :=
  match chain_segments with
  | [] => none
  | first_pair :: rest =>
    let last_pair := List.getLastD rest first_pair
    let first_silence := silence_segments.getD first_pair.1 default
    let last_silence := silence_segments.getD last_pair.2.1 default
    let start_ms := centerS first_silence
    let end_ms := centerS last_silence
    let total_duration_ms := end_ms - start_ms
    let total_duration_sec : ℚ := (total_duration_ms : ℚ) / 1000
    if total_duration_sec ≤ MAX_BLOCK_DURATION_SEC ∧ 0 < total_duration_sec then
      let segments := (first_pair :: rest).map (fun p =>
        let from_silence := silence_segments.getD p.1 default
        let to_silence := silence_segments.getD p.2.1 default
        let seg_start := from_silence.end_ms
        let seg_end := to_silence.start_ms
        { start_ms := seg_start
          end_ms := seg_end
          duration_sec := ((seg_end - seg_start : Int) : ℚ) / 1000
          is_standard := p.2.2 : CmCandidate })
      some { start_ms := start_ms, end_ms := end_ms,
             duration_sec := total_duration_sec, segments := segments }
    else
      none

/-- The loop body of `detect_blocks_range_based`, one recursive step per
silence (the source's `for i in 1..len` loop).  `i` is the absolute index
of the silence at the head of `rest` in `ss`; `chain` and `prev_range`
mirror the mutable `chain_segments` and `prev_range` of the source, and
`blocks` accumulates the emitted blocks in order. -/
def detect_go (ss : List SilenceSegment) : List SilenceSegment → Nat →
    List (Nat × Nat × Bool) → Range → List CmBlock → List CmBlock
  | [], _, chain, _, blocks =>
    blocks ++ (try_make_block_range_based chain ss).toList
  | curr :: rest, i, chain, prev_range, blocks =>
    let curr_range := rangeOf curr
    let prev_center := centerR prev_range
    let curr_center := centerR curr_range
    let gap_ms := curr_center - prev_center
    let gap_sec : ℚ := (gap_ms : ℚ) / 1000
    match expected_interval_ms gap_ms with
    | none =>
      let blocks := blocks ++ (try_make_block_range_based chain ss).toList
      detect_go ss rest (i + 1) [] curr_range blocks
    | some expected_ms =>
      let target_range := std_target_range prev_range expected_ms
      let standard_match := curr_range.intersect target_range
      let short_unit_match :=
        if standard_match.isNone && is_short_unit gap_sec then
          let short_expected_ms : Int := round (gap_sec * 1000)
          curr_range.intersect (short_target_range prev_range short_expected_ms)
        else
          none
      let is_standard := standard_match.isSome
      match standard_match.or short_unit_match with
      | some valid_range =>
        detect_go ss rest (i + 1) (chain ++ [(i - 1, i, is_standard)]) valid_range blocks
      | none =>
        let blocks := blocks ++ (try_make_block_range_based chain ss).toList
        detect_go ss rest (i + 1) [] curr_range blocks

/-- Function `detect_blocks_range_based` of the source: the range-based
chainer. -/
def detect_blocks_range_based (silence_segments : List SilenceSegment) : List CmBlock :=
  if silence_segments.length < 2 then []
  else
    match silence_segments with
    | [] => []
    | s0 :: rest => detect_go silence_segments rest 1 [] (rangeOf s0) []

/-- Spec-comparison variant of `detect_go` (refinement check for the
chainer's gap computation).  The spec's step 1 says the coarse gap is
`center(curr) - center(prev)` where `prev` is "the silence that seeded
`prev_range`"; after a reset that silence is the current seed, and after an
accepted hop it is the previous loop iteration's silence, i.e. the silence
at index `i - 1`.  This variant therefore carries that silence (`prev_sil`)
and computes the gap from its full range, while all target ranges are still
built from the carried `prev_range`, exactly as in `detect_go`.  Everything
except the gap computation is identical to `detect_go`. -/
def detect_spec_gap_go (ss : List SilenceSegment) : List SilenceSegment → Nat →
    List (Nat × Nat × Bool) → Range → SilenceSegment → List CmBlock → List CmBlock
  | [], _, chain, _, _, blocks =>
    blocks ++ (try_make_block_range_based chain ss).toList
  | curr :: rest, i, chain, prev_range, prev_sil, blocks =>
    let curr_range := rangeOf curr
    let prev_center := centerR (rangeOf prev_sil)
    let curr_center := centerR curr_range
    let gap_ms := curr_center - prev_center
    let gap_sec : ℚ := (gap_ms : ℚ) / 1000
    match expected_interval_ms gap_ms with
    | none =>
      let blocks := blocks ++ (try_make_block_range_based chain ss).toList
      detect_spec_gap_go ss rest (i + 1) [] curr_range curr blocks
    | some expected_ms =>
      let target_range := std_target_range prev_range expected_ms
      let standard_match := curr_range.intersect target_range
      let short_unit_match :=
        if standard_match.isNone && is_short_unit gap_sec then
          let short_expected_ms : Int := round (gap_sec * 1000)
          curr_range.intersect (short_target_range prev_range short_expected_ms)
        else
          none
      let is_standard := standard_match.isSome
      match standard_match.or short_unit_match with
      | some valid_range =>
        detect_spec_gap_go ss rest (i + 1) (chain ++ [(i - 1, i, is_standard)])
          valid_range curr blocks
      | none =>
        let blocks := blocks ++ (try_make_block_range_based chain ss).toList
        detect_spec_gap_go ss rest (i + 1) [] curr_range curr blocks

/-- Spec-comparison variant of `detect_blocks_range_based` whose coarse gap
is computed from the seeding silence's own full range (the spec's words)
rather than from the carried `prev_range` (the code). -/
def detect_blocks_spec_gap (silence_segments : List SilenceSegment) : List CmBlock :=
  if silence_segments.length < 2 then []
  else
    match silence_segments with
    | [] => []
    | s0 :: rest => detect_spec_gap_go silence_segments rest 1 [] (rangeOf s0) s0 []

/-- Function `check_short_units_in_gap` of the source: can the gap between
two provisional blocks be explained by short (5 s / 10 s) units? -/
def check_short_units_in_gap (silence_segments : List SilenceSegment)
    (gap_start gap_end : Int) : Bool :=
  let gap_silences := silence_segments.filter
    (fun s => decide (gap_start ≤ s.start_ms) && decide (s.end_ms ≤ gap_end))
  if gap_silences.isEmpty then
    let gap_sec : ℚ := ((gap_end - gap_start : Int) : ℚ) / 1000
    is_short_unit gap_sec
  else
    let total_gap_sec : ℚ := ((gap_end - gap_start : Int) : ℚ) / 1000
    (List.range' 1 6).any (fun n =>
      SHORT_UNITS.any (fun unit =>
        let expected := unit * (n : ℚ)
        decide (|total_gap_sec - expected| ≤ ((TOLERANCE_MS : ℚ) / 1000) * (n : ℚ))))

/-- The fused block built by `merge_blocks_with_short_units` when the gap
check succeeds: the current block's span extended to the next block's end,
with a synthesized non-standard hop spanning the gap. -/
def merge_two (current_block next_block : CmBlock) : CmBlock :=
  let gap_start := current_block.end_ms
  let gap_end := next_block.start_ms
  let gap_duration : ℚ := ((gap_end - gap_start : Int) : ℚ) / 1000
  let merged_segments := current_block.segments ++
    [{ start_ms := gap_start, end_ms := gap_end,
       duration_sec := gap_duration, is_standard := false : CmCandidate }] ++
    next_block.segments
  let total_duration : ℚ := ((next_block.end_ms - current_block.start_ms : Int) : ℚ) / 1000
  { start_ms := current_block.start_ms, end_ms := next_block.end_ms,
    duration_sec := total_duration, segments := merged_segments }

/-- The loop body of `merge_blocks_with_short_units` (the source's
`for i in 1..blocks.len()` loop with its mutable `current_block` and
`merged` accumulator). -/
def merge_go (silence_segments : List SilenceSegment) :
    CmBlock → List CmBlock → List CmBlock → List CmBlock
  | current_block, [], merged => merged ++ [current_block]
  | current_block, next_block :: rest, merged =>
    let gap_start := current_block.end_ms
    let gap_end := next_block.start_ms
    let can_merge := check_short_units_in_gap silence_segments gap_start gap_end
    if can_merge then
      merge_go silence_segments (merge_two current_block next_block) rest merged
    else
      merge_go silence_segments next_block rest (merged ++ [current_block])

/-- Function `merge_blocks_with_short_units` of the source: join adjacent
provisional blocks whose gap passes `check_short_units_in_gap`. -/
def merge_blocks_with_short_units (blocks : List CmBlock)
    (silence_segments : List SilenceSegment) : List CmBlock :=
  match blocks with
  | [] => []
  | [b] => [b]
  | b :: rest => merge_go silence_segments b rest []

/-- The leading-edge `while current_idx > 0` loop of
`extend_single_block_boundaries`: walk backwards from silence index
`current_idx`, absorbing short edge-to-edge gaps.  Returns the prepended
segments (in ascending order, as built by `insert(0, ...)` in the source)
and the new block start. -/
def extend_back (silence_segments : List SilenceSegment) :
    Nat → List CmCandidate → Int → List CmCandidate × Int
  | 0, pre, new_start_ms => (pre, new_start_ms)
  | current_idx + 1, pre, new_start_ms =>
    let prev_seg := silence_segments.getD current_idx default
    let curr_seg := silence_segments.getD (current_idx + 1) default
    let gap_ms := curr_seg.start_ms - prev_seg.end_ms
    let gap_sec : ℚ := (gap_ms : ℚ) / 1000
    if is_short_unit gap_sec then
      let seg_start := centerS prev_seg
      let seg_end := centerS curr_seg
      let seg_duration_sec : ℚ := ((seg_end - seg_start : Int) : ℚ) / 1000
      extend_back silence_segments current_idx
        ({ start_ms := seg_start, end_ms := seg_end,
           duration_sec := seg_duration_sec, is_standard := false : CmCandidate } :: pre)
        seg_start
    else
      (pre, new_start_ms)

/-- The trailing-edge `while current_idx + 1 < len` loop of
`extend_single_block_boundaries`: walk forwards from silence index
`current_idx`, absorbing short edge-to-edge gaps.  `fuel` is
`silence_segments.length - current_idx - 1`, the number of remaining
forward steps, so the recursion mirrors the loop guard exactly. -/
def extend_fwd (silence_segments : List SilenceSegment) :
    Nat → Nat → List CmCandidate → Int → List CmCandidate × Int
  | 0, _, app, new_end_ms => (app, new_end_ms)
  | fuel + 1, current_idx, app, new_end_ms =>
    let curr_seg := silence_segments.getD current_idx default
    let next_seg := silence_segments.getD (current_idx + 1) default
    let gap_ms := next_seg.start_ms - curr_seg.end_ms
    let gap_sec : ℚ := (gap_ms : ℚ) / 1000
    if is_short_unit gap_sec then
      let seg_start := centerS curr_seg
      let seg_end := centerS next_seg
      let seg_duration_sec : ℚ := ((seg_end - seg_start : Int) : ℚ) / 1000
      extend_fwd silence_segments fuel (current_idx + 1)
        (app ++ [{ start_ms := seg_start, end_ms := seg_end,
                   duration_sec := seg_duration_sec, is_standard := false : CmCandidate }])
        seg_end
    else
      (app, new_end_ms)

/-- Function `extend_single_block_boundaries` of the source: extend one
block's edges outward across short edge-to-edge gaps, starting from the
silences whose centers equal the block endpoints. -/
def extend_single_block_boundaries (block : CmBlock)
    (silence_segments : List SilenceSegment) : CmBlock :=
  let startResult :=
    match silence_segments.findIdx? (fun s => centerS s == block.start_ms) with
    | some start_idx => extend_back silence_segments start_idx [] block.start_ms
    | none => ([], block.start_ms)
  let prepend_segments := startResult.1
  let new_start_ms := startResult.2
  let endResult :=
    match silence_segments.findIdx? (fun s => centerS s == block.end_ms) with
    | some end_idx =>
      extend_fwd silence_segments (silence_segments.length - end_idx - 1) end_idx []
        block.end_ms
    | none => ([], block.end_ms)
  let append_segments := endResult.1
  let new_end_ms := endResult.2
  if prepend_segments.isEmpty && append_segments.isEmpty then
    block
  else
    let new_segments := prepend_segments ++ block.segments ++ append_segments
    let new_duration_sec : ℚ := ((new_end_ms - new_start_ms : Int) : ℚ) / 1000
    { start_ms := new_start_ms, end_ms := new_end_ms,
      duration_sec := new_duration_sec, segments := new_segments }

/-- Function `extend_block_boundaries_with_short_units` of the source. -/
def extend_block_boundaries_with_short_units (blocks : List CmBlock)
    (silence_segments : List SilenceSegment) : List CmBlock :=
  if blocks.isEmpty || silence_segments.isEmpty then
    blocks
  else
    blocks.map (fun block => extend_single_block_boundaries block silence_segments)

/-- Function `count_standard_units` of the source. -/
def count_standard_units (block : CmBlock) : Nat :=
  (block.segments.filter (fun seg => seg.is_standard)).length

/-- Function `filter_blocks_by_standard_units` of the source: the final
filter, keeping blocks with at least `MIN_BLOCK_DURATION_SEC` seconds and
at least `MIN_STANDARD_UNITS` standard hops. -/
def filter_blocks_by_standard_units (blocks : List CmBlock) : List CmBlock :=
  blocks.filter (fun block =>
    let standard_count := count_standard_units block
    let meets_duration := decide (MIN_BLOCK_DURATION_SEC ≤ block.duration_sec)
    let meets_standard_units := decide (MIN_STANDARD_UNITS ≤ standard_count)
    meets_duration && meets_standard_units)

/-- The block pipeline of `main`: chainer, then merge, then boundary
extension, then the final filter (source lines 100-137). -/
def run_pipeline (silence_segments : List SilenceSegment) : List CmBlock :=
  let blocks := detect_blocks_range_based silence_segments
  let blocks := merge_blocks_with_short_units blocks silence_segments
  let blocks := extend_block_boundaries_with_short_units blocks silence_segments
  filter_blocks_by_standard_units blocks

/-- The output record built by `main` (source lines 140-152). -/
def build_output (silence_segments : List SilenceSegment) : OutputJson :=
  { input_file := "stdin"
    start_offset_ms := detect_start_offset_ms silence_segments
    cm_blocks := run_pipeline silence_segments
    silence_segments := silence_segments.map (fun s =>
      { start_ms := s.start_ms, end_ms := s.end_ms, duration_ms := s.duration_ms }) }

/-- Function `is_ascii_line` of the source: a line is ASCII iff all its
bytes are, which for the character list model means every code point is at
most 127. -/
def is_ascii_line (line : List Char) : Bool :=
  line.all (fun c => decide (c.toNat ≤ 127))

/-- Drops a single trailing carriage return, as Rust's `str::lines` does. -/
def strip_cr (line : List Char) : List Char :=
  if line.getLast? = some '\r' then line.dropLast else line

/-- Recursive worker for `linesOf`; `fuel` bounds the recursion depth and is
initially the length of the input, which suffices because every step
consumes at least the line terminator. -/
def lines_go : Nat → List Char → List (List Char)
  | _, [] => []
  | 0, s => [strip_cr s]
  | fuel + 1, c :: rest =>
    let s := c :: rest
    let line := s.takeWhile (fun ch => ch != '\n')
    let after := s.dropWhile (fun ch => ch != '\n')
    match after with
    | [] => [strip_cr line]
    | _ :: rest2 => strip_cr line :: lines_go fuel rest2

/-- Rust's `str::lines`: split on newlines, strip one trailing `\r` per
line, no trailing empty line; the empty string has no lines. -/
def linesOf (s : List Char) : List (List Char) := lines_go s.length s

/-- Recursive worker for `splitOnKey`; `fuel` bounds the recursion depth
and is initially the length of the haystack (sufficient because `key` is
never empty where this is used). -/
def split_key_go (key : List Char) : Nat → List Char → List Char → List (List Char)
  | _, [], acc => [acc.reverse]
  | 0, s, acc => [acc.reverse ++ s]
  | fuel + 1, c :: rest, acc =>
    if key.isPrefixOf (c :: rest) then
      acc.reverse :: split_key_go key fuel ((c :: rest).drop key.length) []
    else
      split_key_go key fuel rest (c :: acc)

/-- Rust's `str::split` by a non-empty literal pattern. -/
def splitOnKey (key s : List Char) : List (List Char) :=
  split_key_go key s.length s []

/-- Rust's `str::split_whitespace().next()`: the first maximal run of
non-whitespace characters, or `none` if there is none. -/
def firstToken (cs : List Char) : Option (List Char) :=
  let t := (cs.dropWhile Char.isWhitespace).takeWhile (fun c => !c.isWhitespace)
  if t.isEmpty then none else some t

/-- Modelled from the spec (section 4.A: "extract the first
whitespace-delimited floating-point value following the token"): Rust's
`str::parse::<f64>` restricted to plain decimal literals, evaluated
exactly in `ℚ`.  The exponent, infinity and NaN forms of the `f64` grammar
and the rounding of the decimal to a binary float are not modelled; the
silence probe emits plain short decimals for which the model is exact. -/
def parse_decimal (cs : List Char) : Option ℚ :=
  let intPart := cs.takeWhile Char.isDigit
  let rest := cs.dropWhile Char.isDigit
  let natVal : List Char → ℕ := fun ds => ds.foldl (fun acc c => acc * 10 + (c.toNat - 48)) 0
  match rest with
  | [] => if intPart.isEmpty then none else some ((natVal intPart : ℤ) : ℚ)
  | '.' :: frac =>
    if frac.all Char.isDigit && !(intPart.isEmpty && frac.isEmpty) then
      some (((natVal intPart : ℤ) : ℚ) + Rat.divInt (natVal frac) ((10 : ℤ) ^ frac.length))
    else none
  | _ => none

/-- Rust's `str::parse::<f64>` (sign handling), on the decimal model. -/
def parse_f64 (cs : List Char) : Option ℚ :=
  match cs with
  | '+' :: rest => parse_decimal rest
  | '-' :: rest => (parse_decimal rest).map Neg.neg
  | _ => parse_decimal cs

/-- The Rust cast `expr as i64` on the `f64` model: truncation toward zero
(saturation at the `i64` bounds is not modelled; the program's values are
far below them). -/
def f64_as_i64 (q : ℚ) : Int := if 0 ≤ q then ⌊q⌋ else ⌈q⌉

/-- Rust's `str::contains` for a literal pattern: some suffix starts with
the pattern. -/
def contains_key (key : List Char) : List Char → Bool
  | [] => key.isPrefixOf []
  | c :: rest => key.isPrefixOf (c :: rest) || contains_key key rest

/-- The literal `"silence_start:"`. -/
def silence_start_key : List Char := "silence_start:".toList

/-- The literal `"silence_end:"`. -/
def silence_end_key : List Char := "silence_end:".toList

/-- Function `extract_timestamp` of the source:
`line.split(key).nth(1)?.split_whitespace().next()?.parse::<f64>().ok()`. -/
def extract_timestamp (line key : List Char) : Option ℚ :=
  ((splitOnKey key line).get? 1).bind (fun part =>
    (firstToken part).bind parse_f64)

/-- The line loop of `parse_silence_output`, with the mutable
`current_start` as an argument (the skipped-line diagnostic counter is not
modelled; it only feeds `eprintln!`). -/
def parse_lines_go : List (List Char) → Option ℚ → List SilenceSegment
  | [], _ => []
  | line :: rest, current_start =>
    if !(is_ascii_line line) then
      parse_lines_go rest current_start
    else if contains_key silence_start_key line then
      match extract_timestamp line silence_start_key with
      | some start => parse_lines_go rest (some start)
      | none => parse_lines_go rest current_start
    else if contains_key silence_end_key line then
      match current_start, extract_timestamp line silence_end_key with
      | some start, some stop =>
        { start_ms := f64_as_i64 (start * 1000)
          end_ms := f64_as_i64 (stop * 1000)
          duration_ms := f64_as_i64 ((stop - start) * 1000) : SilenceSegment }
          :: parse_lines_go rest none
      | _, _ => parse_lines_go rest current_start
    else
      parse_lines_go rest current_start

/-- Function `parse_silence_output` of the source, on the character-list
model of the decoded stdin bytes. -/
def parse_silence_output (output : List Char) : List SilenceSegment :=
  parse_lines_go (linesOf output) none

/-- The whole program on decoded input bytes: parse, run the block
pipeline, build the output record (function `main` of the source, without
the I/O). -/
def main_output (input : List Char) : OutputJson :=
  build_output (parse_silence_output input)

/-- A JSON value, for modelling the serde-derived serialization of the
output record.  Integers and rationals (the model of `f64`) are kept as
separate constructors; object fields are listed in declaration order, which
is how `#[derive(Serialize)]` emits them. -/
inductive Json where
  | jnull : Json
  | jint : Int → Json
  | jnum : ℚ → Json
  | jstr : String → Json
  | jbool : Bool → Json
  | jarr : List Json → Json
  | jobj : List (String × Json) → Json

/-- Serialization of `CmCandidate` as derived by serde: all four declared
fields, in declaration order. -/
def serialize_CmCandidate (c : CmCandidate) : Json :=
  Json.jobj [("start_ms", Json.jint c.start_ms),
             ("end_ms", Json.jint c.end_ms),
             ("duration_sec", Json.jnum c.duration_sec),
             ("is_standard", Json.jbool c.is_standard)]

/-- Serialization of `CmBlock` as derived by serde. -/
def serialize_CmBlock (b : CmBlock) : Json :=
  Json.jobj [("start_ms", Json.jint b.start_ms),
             ("end_ms", Json.jint b.end_ms),
             ("duration_sec", Json.jnum b.duration_sec),
             ("segments", Json.jarr (b.segments.map serialize_CmCandidate))]

/-- Serialization of `SilenceSegmentOutput` as derived by serde. -/
def serialize_SilenceSegmentOutput (s : SilenceSegmentOutput) : Json :=
  Json.jobj [("start_ms", Json.jint s.start_ms),
             ("end_ms", Json.jint s.end_ms),
             ("duration_ms", Json.jint s.duration_ms)]

/-- Serialization of `OutputJson` as derived by serde (an `Option` field
serializes as the value or `null`). -/
def serialize_OutputJson (o : OutputJson) : Json :=
  Json.jobj [("input_file", Json.jstr o.input_file),
             ("start_offset_ms", (o.start_offset_ms.map Json.jint).getD Json.jnull),
             ("cm_blocks", Json.jarr (o.cm_blocks.map serialize_CmBlock)),
             ("silence_segments",
              Json.jarr (o.silence_segments.map serialize_SilenceSegmentOutput))]

/-- The keys of a JSON object (empty for non-objects). -/
def objKeys : Json → List String
  | Json.jobj fields => fields.map Prod.fst
  | _ => []

/-- Field lookup in a JSON object. -/
def getField (j : Json) (key : String) : Option Json :=
  match j with
  | Json.jobj fields => (fields.find? (fun f => f.1 == key)).map Prod.snd
  | _ => none

/-- The segment objects of a serialized output record: the elements of the
`segments` array of each element of the `cm_blocks` array. -/
def segmentObjs (j : Json) : List Json :=
  match getField j "cm_blocks" with
  | some (Json.jarr blocks) =>
    blocks.flatMap (fun b =>
      match getField b "segments" with
      | some (Json.jarr segs) => segs
      | _ => [])
  | _ => []

/-- The shape of the chainer's `chain_segments` state: entry `k` is the hop
from silence `f + k` to silence `f + k + 1` (hops over consecutive
silences, starting at index `f`). -/
def ChainFrom (f : Nat) (chain : List (Nat × Nat × Bool)) : Prop :=
  ∀ k (hk : k < chain.length),
    (chain.get ⟨k, hk⟩).1 = f + k ∧ (chain.get ⟨k, hk⟩).2.1 = f + k + 1

/-- Everything the chain-close policy guarantees about an emitted block:
its endpoints are the centers of the first and last chained silences (at
indices `f` and `f + n` of the input), its duration is positive, at most
`MAX_BLOCK_DURATION_SEC` and consistent with the endpoints, and segment `k`
runs from the end of silence `f + k` to the start of silence `f + k + 1`. -/
def BlockOK (ss : List SilenceSegment) (b : CmBlock) : Prop :=
  ∃ f n, 0 < n ∧ f + n < ss.length ∧
    b.start_ms = centerS (ss.getD f default) ∧
    b.end_ms = centerS (ss.getD (f + n) default) ∧
    b.start_ms < b.end_ms ∧
    b.duration_sec = ((b.end_ms - b.start_ms : Int) : ℚ) / 1000 ∧
    0 < b.duration_sec ∧ b.duration_sec ≤ MAX_BLOCK_DURATION_SEC ∧
    b.segments.length = n ∧
    (∀ k, k < n → ∃ hh : k < b.segments.length,
      (b.segments.get ⟨k, hh⟩).start_ms = (ss.getD (f + k) default).end_ms ∧
      (b.segments.get ⟨k, hh⟩).end_ms = (ss.getD (f + k + 1) default).start_ms)

/-- Well-formed silence input: every segment's start is at most its end,
and the segments are disjoint and sorted (each ends before the next one
starts), as the silence probe emits them. -/
def WfSilences (ss : List SilenceSegment) : Prop :=
  (∀ s ∈ ss, s.start_ms ≤ s.end_ms) ∧
  List.Chain' (fun a b => a.end_ms ≤ b.start_ms) ss

/-- Blocks listed in time order without overlap: each block ends no later
than the next one starts. -/
def blocksOrdered (blocks : List CmBlock) : Prop :=
  List.Pairwise (fun a b => a.end_ms ≤ b.start_ms) blocks

/-! Concrete inputs used by counterexamples and witnesses. -/

/-- Two overlapping-tolerance silences 14.5 s apart (the chainer accepts
one standard hop). -/
def exC1 : List SilenceSegment := [⟨0, 1000, 1000⟩, ⟨14500, 15500, 1000⟩]

/-- A 360 s run of point silences on the 15 s grid, followed (22.5 s
later, which the chainer rejects but the merge pass accepts as five 5 s
units) by a short second chain. -/
def exC2 : List SilenceSegment :=
  ((List.range 25).map (fun k => (⟨15000 * k, 15000 * k, 0⟩ : SilenceSegment))) ++
  [⟨382500, 382500, 0⟩, ⟨397500, 397500, 0⟩, ⟨412500, 412500, 0⟩]

/-- A point silence, a wide silence whose accepted intersection is far from
its own center, and a third silence placed where the carried-range gap and
the seed-silence gap fall on different sides of the 82.5 s cutoff. -/
def exC3 : List SilenceSegment := [⟨0, 0, 0⟩, ⟨500, 15500, 15000⟩, ⟨90600, 90600, 0⟩]

/-- Two standard chains separated by two 5 s edge-to-edge bumper gaps whose
center-to-center total (13 s) is not mergeable; the boundary extension then
pushes the first block's end across both bumpers past the second block's
start. -/
def exC4 : List SilenceSegment :=
  [⟨0, 0, 0⟩, ⟨15000, 15000, 0⟩, ⟨30000, 30000, 0⟩, ⟨45000, 45000, 0⟩, ⟨60000, 60000, 0⟩,
   ⟨74500, 75500, 1000⟩, ⟨80500, 82500, 2000⟩, ⟨87500, 88500, 1000⟩,
   ⟨103000, 103000, 0⟩, ⟨118000, 118000, 0⟩, ⟨133000, 133000, 0⟩, ⟨148000, 148000, 0⟩,
   ⟨163000, 163000, 0⟩]

/-- The source's `test_basic_cm_block_detection` input: six silences on the
15 s grid forming one 74.5 s block. -/
def exBasic : List SilenceSegment :=
  [⟨0, 1000, 1000⟩, ⟨14500, 15500, 1000⟩, ⟨29500, 30500, 1000⟩, ⟨44500, 45500, 1000⟩,
   ⟨59500, 60500, 1000⟩, ⟨74500, 75500, 1000⟩]

/-- The single block the pipeline produces from `exBasic`. -/
def blockW : CmBlock :=
  { start_ms := 500, end_ms := 75000, duration_sec := 149/2,
    segments := [⟨1000, 14500, 27/2, true⟩, ⟨15500, 29500, 14, true⟩,
                 ⟨30500, 44500, 14, true⟩, ⟨45500, 59500, 14, true⟩,
                 ⟨60500, 74500, 14, true⟩] }

/-- A list of point silences on the grid (for the point-silence agreement
witness). -/
def exPts : List SilenceSegment := [⟨0, 0, 0⟩, ⟨15000, 15000, 0⟩, ⟨30200, 30200, 0⟩]

/-- The first segment of `blockW`. -/
def segW : CmCandidate := ⟨1000, 14500, 27/2, true⟩

/-- A concrete output record containing `blockW` (for the serialization
witness). -/
def outW : OutputJson :=
  { input_file := "stdin", start_offset_ms := none,
    cm_blocks := [blockW], silence_segments := [] }

/-! Helper lemmas. -/

theorem tdiv_two_bounds {s e : Int} (h : s ≤ e) :
    s ≤ Int.tdiv (s + e) 2 ∧ Int.tdiv (s + e) 2 ≤ e := by
  rcases le_or_lt 0 (s + e) with h0 | h0
  · rw [Int.tdiv_eq_ediv h0 (by norm_num)]
    omega
  · have heq : Int.tdiv (s + e) 2 = -(Int.tdiv (-(s + e)) 2) := by
      rw [← Int.neg_tdiv, neg_neg]
    rw [heq, Int.tdiv_eq_ediv (by omega) (by norm_num)]
    omega

theorem centerS_bounds {s : SilenceSegment} (h : s.start_ms ≤ s.end_ms) :
    s.start_ms ≤ centerS s ∧ centerS s ≤ s.end_ms := tdiv_two_bounds h

theorem centerR_bounds {r : Range} (h : r.start ≤ r.stop) :
    r.start ≤ centerR r ∧ centerR r ≤ r.stop := tdiv_two_bounds h

theorem centerR_point (c : Int) : centerR (Range.new c c) = c := by
  show Int.tdiv (c + c) 2 = c
  have hcc : c + c = c * 2 := by ring
  rw [hcc, Int.mul_tdiv_cancel _ (by norm_num)]

theorem qdiv1000_pos {x : Int} : (0 : ℚ) < (x : ℚ) / 1000 ↔ 0 < x := by
  rw [div_pos_iff]
  constructor
  · rintro (⟨h, _⟩ | ⟨_, h⟩)
    · exact_mod_cast h
    · norm_num at h
  · intro h
    exact Or.inl ⟨by exact_mod_cast h, by norm_num⟩

/-- C9: the start-offset detector returns the center of the first silence
(in input order) whose center lies in the inclusive window
`[START_OFFSET_MIN_MS, START_OFFSET_MAX_MS]` = `[2000, 8000]`, and `none`
exactly when no silence's center lies in that window. -/
theorem detect_start_offset_ms_spec (ss : List SilenceSegment) :
    detect_start_offset_ms ss =
      (ss.find? (fun s => decide (START_OFFSET_MIN_MS ≤ centerS s ∧
        centerS s ≤ START_OFFSET_MAX_MS))).map centerS ∧
    (detect_start_offset_ms ss = none ↔
      ∀ s ∈ ss, ¬(START_OFFSET_MIN_MS ≤ centerS s ∧ centerS s ≤ START_OFFSET_MAX_MS)) := by
  have h1 : ∀ (l : List SilenceSegment), detect_start_offset_ms l =
      (l.find? (fun s => decide (START_OFFSET_MIN_MS ≤ centerS s ∧
        centerS s ≤ START_OFFSET_MAX_MS))).map centerS := by
    intro l
    induction l with
    | nil => rfl
    | cons a t ih =>
      by_cases hc : START_OFFSET_MIN_MS ≤ centerS a ∧ centerS a ≤ START_OFFSET_MAX_MS
      · simp [detect_start_offset_ms, hc]
      · simp [detect_start_offset_ms, hc, ih]
  refine ⟨h1 ss, ?_⟩
  rw [h1 ss]
  simp [List.find?_eq_none]

section RatEvalA

attribute [local semireducible] Rat.add Rat.mul Rat.sub Rat.inv

/-- C6: with a point `prev_range` seeded by a point silence, a
center-to-center gap of exactly 15500 ms yields one coarse standard unit
and a non-empty standard intersection (the hop is accepted as standard),
while a gap of exactly 15501 ms yields an empty standard intersection and
fails the short-unit test, so the chain closes; concretely, the detector
accepts the 15500 ms pair as a one-standard-hop block and produces nothing
from the 15501 ms pair. -/
theorem gap_15500_accepted_15501_rejected :
    (∀ p : Int,
      coarse_unit_count (centerR (Range.new (p + 15500) (p + 15500)) -
        centerR (Range.new p p)) = some 1 ∧
      ((Range.new (p + 15500) (p + 15500)).intersect
        (std_target_range (Range.new p p) 15000)).isSome = true) ∧
    (∀ p : Int,
      expected_interval_ms (centerR (Range.new (p + 15501) (p + 15501)) -
        centerR (Range.new p p)) = some 15000 ∧
      (Range.new (p + 15501) (p + 15501)).intersect
        (std_target_range (Range.new p p) 15000) = none ∧
      is_short_unit ((((centerR (Range.new (p + 15501) (p + 15501)) -
        centerR (Range.new p p)) : Int) : ℚ) / 1000) = false) ∧
    (detect_blocks_range_based [⟨0, 0, 0⟩, ⟨15500, 15500, 0⟩]).map
      (fun b => b.segments.map CmCandidate.is_standard) = [[true]] ∧
    detect_blocks_range_based [⟨0, 0, 0⟩, ⟨15501, 15501, 0⟩] = [] := by
  refine ⟨?_, ?_, by decide, by decide⟩
  · intro p
    rw [centerR_point, centerR_point]
    have hgap : p + 15500 - p = (15500 : Int) := by ring
    rw [hgap]
    refine ⟨by decide, ?_⟩
    show (Range.intersect _ _).isSome = true
    rw [Range.intersect]
    simp only [std_target_range, Range.offset, Range.new, TOLERANCE_MS]
    rw [if_pos (by omega)]
    rfl
  · intro p
    rw [centerR_point, centerR_point]
    have hgap : p + 15501 - p = (15501 : Int) := by ring
    rw [hgap]
    refine ⟨by decide, ?_, by decide⟩
    rw [Range.intersect]
    simp only [std_target_range, Range.offset, Range.new, TOLERANCE_MS]
    rw [if_neg (by omega)]

end RatEvalA

theorem getLastD_eq_get {α : Type} : ∀ (rest : List α) (first : α),
    List.getLastD rest first = (first :: rest).get ⟨rest.length, by simp⟩
  | [], _ => rfl
  | b :: t, first => by
    rw [List.getLastD_cons, getLastD_eq_get t b]
    rfl

theorem ChainFrom_nil (f : Nat) : ChainFrom f [] := by
  intro k hk
  simp at hk

theorem ChainFrom_single (j : Nat) (s : Bool) : ChainFrom j [(j, j + 1, s)] := by
  intro k hk
  simp at hk
  subst hk
  exact ⟨rfl, rfl⟩

theorem ChainFrom_append {f : Nat} {chain : List (Nat × Nat × Bool)} (s : Bool)
    (hch : ChainFrom f chain) :
    ChainFrom f (chain ++ [(f + chain.length, f + chain.length + 1, s)]) := by
  intro k hk
  have hk1 : k < chain.length + 1 := by simpa using hk
  rw [List.get_eq_getElem]
  rcases lt_or_ge k chain.length with hlt | hge
  · rw [List.getElem_append_left hlt]
    have := hch k hlt
    rw [List.get_eq_getElem] at this
    exact this
  · have hk' : k = chain.length := by omega
    subst hk'
    rw [List.getElem_concat_length _ _ _ rfl]
    exact ⟨rfl, rfl⟩

theorem try_make_some_BlockOK {ss : List SilenceSegment}
    {chain : List (Nat × Nat × Bool)} {f : Nat} {b : CmBlock}
    (hch : ChainFrom f chain) (hlen : f + chain.length < ss.length)
    (hb : try_make_block_range_based chain ss = some b) : BlockOK ss b := by
  match chain, hch, hlen, hb with
  | [], _, _, hb => simp [try_make_block_range_based] at hb
  | first :: rest, hch, hlen, hb =>
    simp only [try_make_block_range_based, getLastD_eq_get] at hb
    split at hb
    case isFalse => exact absurd hb (by simp)
    case isTrue hcond =>
      have hb' := Option.some.inj hb
      subst hb'
      have hf : first.1 = f := by
        have := hch 0 (by simp)
        simpa using this.1
      have hl : ((first :: rest).get ⟨rest.length, by simp⟩).2.1 = f + rest.length + 1 := by
        have := hch rest.length (by simp)
        simpa using this.2
      have hfr : f + rest.length + 1 = f + (rest.length + 1) := by omega
      have hstartlt : centerS (ss.getD first.1 default) <
          centerS (ss.getD ((first :: rest).get ⟨rest.length, by simp⟩).2.1 default) := by
        have := qdiv1000_pos.mp hcond.2
        omega
      refine ⟨f, rest.length + 1, by omega, by simpa using hlen,
        ?_, ?_, ?_, rfl, hcond.2, hcond.1, by simp, ?_⟩
      · show centerS (ss.getD first.1 default) = _
        rw [hf]
      · show centerS (ss.getD ((first :: rest).get ⟨rest.length, by simp⟩).2.1 default) = _
        rw [hl, hfr]
      · exact hstartlt
      · intro k hk
        have hk' : k < (first :: rest).length := by simpa using hk
        refine ⟨by simpa using hk, ?_, ?_⟩
        · rw [List.get_eq_getElem, List.getElem_map]
          have := (hch k hk').1
          rw [List.get_eq_getElem] at this
          rw [this]
        · rw [List.get_eq_getElem, List.getElem_map]
          have := (hch k hk').2
          rw [List.get_eq_getElem] at this
          rw [this]

theorem mem_toList_try_make {chain : List (Nat × Nat × Bool)}
    {ss : List SilenceSegment} {b : CmBlock}
    (h : b ∈ (try_make_block_range_based chain ss).toList) :
    try_make_block_range_based chain ss = some b := by
  cases htm : try_make_block_range_based chain ss with
  | none => rw [htm] at h; simp at h
  | some b' => rw [htm] at h; simp at h; rw [h]

theorem try_make_nil (ss : List SilenceSegment) :
    try_make_block_range_based [] ss = none := rfl

/-- Every block ever added to the accumulator of `detect_go` satisfies
`BlockOK`: the chain state always consists of hops over consecutive
silences ending just before the current index, and the chain-close policy
emits only blocks of the `BlockOK` shape. -/
theorem detect_go_mem_BlockOK (ss : List SilenceSegment) :
    ∀ (rest : List SilenceSegment) (i : Nat) (chain : List (Nat × Nat × Bool))
      (prev : Range) (blocks : List CmBlock),
    1 ≤ i → i + rest.length = ss.length →
    (chain ≠ [] → ∃ f, ChainFrom f chain ∧ f + chain.length + 1 = i) →
    (∀ b ∈ blocks, BlockOK ss b) →
    ∀ b ∈ detect_go ss rest i chain prev blocks, BlockOK ss b := by
  intro rest
  induction rest with
  | nil =>
    intro i chain prev blocks hi hlen hch hbl b hb
    rw [detect_go] at hb
    rcases List.mem_append.mp hb with h | h
    · exact hbl b h
    · have htm := mem_toList_try_make h
      cases hchain : chain with
      | nil => rw [hchain, try_make_nil] at htm; exact absurd htm (by simp)
      | cons c cs =>
        obtain ⟨f, hcf, hfl⟩ := hch (by rw [hchain]; simp)
        have hfb : f + chain.length < ss.length := by simp at hlen; omega
        exact try_make_some_BlockOK hcf hfb htm
  | cons curr rest' ih =>
    intro i chain prev blocks hi hlen hch hbl b hb
    have hilen : i < ss.length := by simp at hlen; omega
    have hlen' : (i + 1) + rest'.length = ss.length := by simp at hlen; omega
    have hemit : ∀ b' ∈ blocks ++ (try_make_block_range_based chain ss).toList,
        BlockOK ss b' := by
      intro b' hb'
      rcases List.mem_append.mp hb' with h | h
      · exact hbl b' h
      · have htm := mem_toList_try_make h
        cases hchain : chain with
        | nil => rw [hchain, try_make_nil] at htm; exact absurd htm (by simp)
        | cons c cs =>
          obtain ⟨f, hcf, hfl⟩ := hch (by rw [hchain]; simp)
          have hfb : f + chain.length < ss.length := by omega
          exact try_make_some_BlockOK hcf hfb htm
    have hchain' : ∀ s : Bool, (chain ++ [(i - 1, i, s)] ≠ []) →
        ∃ f, ChainFrom f (chain ++ [(i - 1, i, s)]) ∧
          f + (chain ++ [(i - 1, i, s)]).length + 1 = i + 1 := by
      intro s _
      cases hchain : chain with
      | nil =>
        refine ⟨i - 1, ?_, by simp; omega⟩
        have h1 : i - 1 + 1 = i := by omega
        have := ChainFrom_single (i - 1) s
        rw [h1] at this
        simpa using this
      | cons c cs =>
        obtain ⟨f, hcf, hfl⟩ := hch (by rw [hchain]; simp)
        rw [← hchain]
        refine ⟨f, ?_, by simp; omega⟩
        have h1 : i - 1 = f + chain.length := by omega
        have h3 : i - 1 + 1 = i := by omega
        have := ChainFrom_append s hcf
        rw [← h1, h3] at this
        exact this
    simp only [detect_go] at hb
    split at hb
    · exact ih (i + 1) [] (rangeOf curr)
        (blocks ++ (try_make_block_range_based chain ss).toList)
        (by omega) hlen' (by intro hne; exact absurd rfl hne) hemit b hb
    · split at hb
      · exact ih (i + 1) _ _ blocks (by omega) hlen' (hchain' _) hbl b hb
      · exact ih (i + 1) [] (rangeOf curr)
          (blocks ++ (try_make_block_range_based chain ss).toList)
          (by omega) hlen' (by intro hne; exact absurd rfl hne) hemit b hb

/-- Every block produced by the chainer satisfies `BlockOK`. -/
theorem detect_mem_BlockOK (ss : List SilenceSegment) :
    ∀ b ∈ detect_blocks_range_based ss, BlockOK ss b := by
  intro b hb
  cases ss with
  | nil => simp [detect_blocks_range_based] at hb
  | cons s0 rest =>
    rw [detect_blocks_range_based.eq_def] at hb
    split at hb
    · simp at hb
    · exact detect_go_mem_BlockOK (s0 :: rest) rest 1 [] (rangeOf s0) []
        le_rfl (by simp only [List.length_cons]; omega)
        (by intro hne; exact absurd rfl hne) (by simp) b hb

theorem getD_mem {α : Type} [Inhabited α] {l : List α} {n : Nat}
    (h : n < l.length) : l.getD n default ∈ l := by
  rw [List.getD_eq_getElem l default h]
  exact List.getElem_mem h

/-- C2 (amended): every block in the final pipeline output has duration at
least `MIN_BLOCK_DURATION_SEC` (60 s), and every block produced by the
chainer (stage C) has positive duration of at most
`MAX_BLOCK_DURATION_SEC` (360 s).  The merge and extension passes do not
re-check the upper bound, so it does not survive to the final output (see
the counterexample). -/
theorem pipeline_duration_bounds :
    (∀ ss b, b ∈ run_pipeline ss → MIN_BLOCK_DURATION_SEC ≤ b.duration_sec) ∧
    (∀ ss b, b ∈ detect_blocks_range_based ss →
      0 < b.duration_sec ∧ b.duration_sec ≤ MAX_BLOCK_DURATION_SEC) := by
  constructor
  · intro ss b hb
    simp only [run_pipeline, filter_blocks_by_standard_units] at hb
    have h := (List.mem_filter.mp hb).2
    simp only [Bool.and_eq_true, decide_eq_true_eq] at h
    exact h.1
  · intro ss b hb
    obtain ⟨f, n, _, _, _, _, _, _, hpos, hle, _, _⟩ := detect_mem_BlockOK ss b hb
    exact ⟨hpos, hle⟩

/-- The merge pass preserves any per-block property that is closed under
fusing two blocks. -/
theorem merge_go_mem {ss : List SilenceSegment} {P : CmBlock → Prop}
    (hP : ∀ cur next, P cur → P next → P (merge_two cur next)) :
    ∀ (rest : List CmBlock) (cur : CmBlock) (merged : List CmBlock),
    P cur → (∀ b ∈ rest, P b) → (∀ b ∈ merged, P b) →
    ∀ b ∈ merge_go ss cur rest merged, P b := by
  intro rest
  induction rest with
  | nil =>
    intro cur merged hc hr hm b hb
    rw [merge_go] at hb
    rcases List.mem_append.mp hb with h | h
    · exact hm b h
    · rw [List.mem_singleton.mp h]
      exact hc
  | cons next rest' ih =>
    intro cur merged hc hr hm b hb
    rw [merge_go] at hb
    split at hb
    · exact ih (merge_two cur next) merged
        (hP cur next hc (hr next (List.mem_cons_self next rest')))
        (fun b' hb' => hr b' (List.mem_cons_of_mem next hb')) hm b hb
    · refine ih next (merged ++ [cur]) (hr next (List.mem_cons_self next rest'))
        (fun b' hb' => hr b' (List.mem_cons_of_mem next hb')) ?_ b hb
      intro b' hb'
      rcases List.mem_append.mp hb' with h | h
      · exact hm b' h
      · rw [List.mem_singleton.mp h]
        exact hc

theorem merge_mem {ss : List SilenceSegment} {P : CmBlock → Prop}
    (hP : ∀ cur next, P cur → P next → P (merge_two cur next)) :
    ∀ (blocks : List CmBlock), (∀ b ∈ blocks, P b) →
    ∀ b ∈ merge_blocks_with_short_units blocks ss, P b := by
  intro blocks hall b hb
  match blocks, hall, hb with
  | [], _, hb => simp [merge_blocks_with_short_units] at hb
  | [b0], hall, hb =>
    have hb' : b ∈ [b0] := hb
    rw [List.mem_singleton.mp hb']
    exact hall b0 (List.mem_singleton_self b0)
  | b0 :: b1 :: rest, hall, hb =>
    have hb' : b ∈ merge_go ss b0 (b1 :: rest) [] := hb
    exact merge_go_mem hP (b1 :: rest) b0 []
      (hall b0 (List.mem_cons_self b0 (b1 :: rest)))
      (fun b' hb' => hall b' (List.mem_cons_of_mem b0 hb'))
      (by simp) b hb'

/-- C7: every block entering the boundary-extension stage (i.e. every block
after the chainer and the merge pass) has some input silence whose center
equals its `start_ms` and some input silence whose center equals its
`end_ms`. -/
theorem merge_output_endpoints_are_centers (ss : List SilenceSegment) :
    ∀ b ∈ merge_blocks_with_short_units (detect_blocks_range_based ss) ss,
      (∃ s ∈ ss, centerS s = b.start_ms) ∧ (∃ s ∈ ss, centerS s = b.end_ms) := by
  refine merge_mem ?_ (detect_blocks_range_based ss) ?_
  · intro cur next hc hn
    exact ⟨hc.1, hn.2⟩
  · intro b hb
    obtain ⟨f, n, hn, hfn, hstart, hend, _⟩ := detect_mem_BlockOK ss b hb
    constructor
    · exact ⟨ss.getD f default, getD_mem (by omega), hstart.symm⟩
    · exact ⟨ss.getD (f + n) default, getD_mem (by omega), hend.symm⟩

/-- C1 (amended): for every block produced by the chainer, the segment list
is non-empty, but the block endpoints are the centers of the first and last
chained silences while the segment endpoints are the raw silence edges: the
first segment starts at the first chained silence's `end_ms` (not at
`block.start_ms`), the last segment ends at the last chained silence's
`start_ms` (not at `block.end_ms`), and adjacent segments are separated by
exactly the intervening silence (`segments[i]` ends at its `start_ms` and
`segments[i+1]` begins at its `end_ms`), so no endpoint overwrite is
performed and contiguity holds only for zero-width silences. -/
theorem chainer_block_segment_structure (ss : List SilenceSegment) :
    ∀ b ∈ detect_blocks_range_based ss,
      b.segments ≠ [] ∧
      (∃ s ∈ ss, b.start_ms = centerS s ∧
        b.segments.head?.map CmCandidate.start_ms = some s.end_ms) ∧
      (∃ s ∈ ss, b.end_ms = centerS s ∧
        b.segments.getLast?.map CmCandidate.end_ms = some s.start_ms) ∧
      List.Chain' (fun c1 c2 => ∃ s ∈ ss, c1.end_ms = s.start_ms ∧
        c2.start_ms = s.end_ms) b.segments := by
  intro b hb
  obtain ⟨f, n, hn, hfn, hstart, hend, hlt, hdur, hpos, hle, hslen, hsegs⟩ :=
    detect_mem_BlockOK ss b hb
  have hlen0 : 0 < b.segments.length := by omega
  refine ⟨by rw [← List.length_pos]; omega, ?_, ?_, ?_⟩
  · obtain ⟨h0, hs0, he0⟩ := hsegs 0 (by omega)
    refine ⟨ss.getD f default, getD_mem (by omega), hstart, ?_⟩
    rw [List.head?_eq_getElem?, List.getElem?_eq_getElem hlen0]
    rw [Option.map_some']
    rw [List.get_eq_getElem] at hs0
    simp only [Nat.add_zero] at hs0
    rw [hs0]
  · obtain ⟨hn1, hsn, hen⟩ := hsegs (n - 1) (by omega)
    refine ⟨ss.getD (f + n) default, getD_mem (by omega), hend, ?_⟩
    have hidx : b.segments.length - 1 = n - 1 := by omega
    rw [List.getLast?_eq_getElem?, hidx, List.getElem?_eq_getElem (by omega)]
    rw [Option.map_some']
    rw [List.get_eq_getElem] at hen
    have : f + (n - 1) + 1 = f + n := by omega
    rw [this] at hen
    rw [hen]
  · rw [List.chain'_iff_get]
    intro k hk
    obtain ⟨hka, hsa, hea⟩ := hsegs k (by omega)
    obtain ⟨hkb, hsb, heb⟩ := hsegs (k + 1) (by omega)
    exact ⟨ss.getD (f + k + 1) default, getD_mem (by omega), hea, hsb⟩

section RatEvalB

attribute [local semireducible] Rat.add Rat.mul Rat.sub Rat.inv

/-- C1 counterexample: on `exC1` the chain-close policy produces exactly one
block, and its first segment's `start_ms` (the first silence's `end_ms`,
1000) differs from the block's `start_ms` (the first silence's center,
500): the endpoint overwrite the claim describes does not happen. -/
theorem chainer_segment_start_differs :
    (detect_blocks_range_based exC1).length = 1 ∧
    ((detect_blocks_range_based exC1).all
      (fun b => b.segments.head?.map CmCandidate.start_ms == some b.start_ms)) = false := by
  exact ⟨by decide, by decide⟩

/-- C2 counterexample: on `exC2` the full pipeline outputs a block whose
duration (412.5 s) exceeds `MAX_BLOCK_DURATION_SEC = 360`: the merge pass
fused a 360 s chain with a later chain across a 22.5 s gap and no stage
re-checked the upper bound. -/
theorem pipeline_block_above_360 :
    ((run_pipeline exC2).all
      (fun b => decide (b.duration_sec ≤ MAX_BLOCK_DURATION_SEC))) = false ∧
    (run_pipeline exC2).length = 1 := by
  exact ⟨by decide, by decide⟩

/-- C1 witness: the amended segment-structure theorem applied to the block
the chainer produces from `exBasic`. -/
theorem chainer_block_segment_structure_witness :
    blockW.segments ≠ [] ∧
    (∃ s ∈ exBasic, blockW.start_ms = centerS s ∧
      blockW.segments.head?.map CmCandidate.start_ms = some s.end_ms) ∧
    (∃ s ∈ exBasic, blockW.end_ms = centerS s ∧
      blockW.segments.getLast?.map CmCandidate.end_ms = some s.start_ms) ∧
    List.Chain' (fun c1 c2 => ∃ s ∈ exBasic, c1.end_ms = s.start_ms ∧
      c2.start_ms = s.end_ms) blockW.segments :=
  chainer_block_segment_structure exBasic blockW (by decide)

/-- C2 witness: the duration bounds applied to the block the pipeline and
the chainer produce from `exBasic`. -/
theorem pipeline_duration_bounds_witness :
    MIN_BLOCK_DURATION_SEC ≤ blockW.duration_sec ∧
    (0 < blockW.duration_sec ∧ blockW.duration_sec ≤ MAX_BLOCK_DURATION_SEC) :=
  ⟨pipeline_duration_bounds.1 exBasic blockW (by decide),
   pipeline_duration_bounds.2 exBasic blockW (by decide)⟩

/-- C7 witness: the endpoint-center theorem applied to the block the
chainer and merge pass produce from `exBasic`. -/
theorem merge_output_endpoints_are_centers_witness :
    (∃ s ∈ exBasic, centerS s = blockW.start_ms) ∧
    (∃ s ∈ exBasic, centerS s = blockW.end_ms) :=
  merge_output_endpoints_are_centers exBasic blockW (by decide)

end RatEvalB

/-! Machinery for C4: sortedness and non-overlap through the chainer and
the merge pass, for well-formed input. -/

theorem chain_head_le :
    ∀ (t : List SilenceSegment) (a : SilenceSegment),
    (∀ s ∈ a :: t, s.start_ms ≤ s.end_ms) →
    List.Chain' (fun x y => x.end_ms ≤ y.start_ms) (a :: t) →
    ∀ b ∈ t, a.end_ms ≤ b.start_ms := by
  intro t
  induction t with
  | nil =>
    intro a _ _ b hb
    simp at hb
  | cons c t' ih =>
    intro a hwf hch b hb
    have hac : a.end_ms ≤ c.start_ms := (List.chain'_cons.mp hch).1
    rcases List.mem_cons.mp hb with rfl | hb'
    · exact hac
    · have hcb := ih c (fun s hs => hwf s (List.mem_cons_of_mem a hs))
        (List.chain'_cons.mp hch).2 b hb'
      have hcc : c.start_ms ≤ c.end_ms := hwf c (by simp)
      omega

theorem wf_pairwise {ss : List SilenceSegment} (hwf : WfSilences ss) :
    List.Pairwise (fun a b => a.end_ms ≤ b.start_ms) ss := by
  obtain ⟨hw, hch⟩ := hwf
  induction ss with
  | nil => exact List.Pairwise.nil
  | cons a t ih =>
    exact List.Pairwise.cons (chain_head_le t a hw hch)
      (ih (fun s hs => hw s (List.mem_cons_of_mem a hs)) (List.Chain'.tail hch))

theorem pairwise_getD {R : SilenceSegment → SilenceSegment → Prop}
    {ss : List SilenceSegment} (hp : List.Pairwise R ss) {j k : Nat}
    (hjk : j < k) (hk : k < ss.length) :
    R (ss.getD j default) (ss.getD k default) := by
  have hj : j < ss.length := lt_trans hjk hk
  rw [List.getD_eq_getElem ss default hj, List.getD_eq_getElem ss default hk]
  exact List.pairwise_iff_getElem.mp hp j k hj hk hjk

theorem centers_mono {ss : List SilenceSegment} (hwf : WfSilences ss)
    {j k : Nat} (hjk : j ≤ k) (hk : k < ss.length) :
    centerS (ss.getD j default) ≤ centerS (ss.getD k default) := by
  rcases Nat.eq_or_lt_of_le hjk with rfl | hlt
  · exact le_rfl
  · have hj : j < ss.length := lt_trans hlt hk
    have hS := pairwise_getD (wf_pairwise hwf) hlt hk
    have hwa := hwf.1 (ss.getD j default) (getD_mem hj)
    have hwb := hwf.1 (ss.getD k default) (getD_mem hk)
    have hba := (centerS_bounds hwa).2
    have hbb := (centerS_bounds hwb).1
    omega

theorem try_make_endpoints {ss : List SilenceSegment}
    {chain : List (Nat × Nat × Bool)} {f : Nat} {b : CmBlock}
    (hch : ChainFrom f chain) (hb : try_make_block_range_based chain ss = some b) :
    b.start_ms = centerS (ss.getD f default) ∧
    b.end_ms = centerS (ss.getD (f + chain.length) default) ∧
    b.start_ms < b.end_ms := by
  match chain, hch, hb with
  | [], _, hb => simp [try_make_block_range_based] at hb
  | first :: rest, hch, hb =>
    simp only [try_make_block_range_based, getLastD_eq_get] at hb
    split at hb
    case isFalse => exact absurd hb (by simp)
    case isTrue hcond =>
      have hb' := Option.some.inj hb
      subst hb'
      have hf : first.1 = f := by
        have := hch 0 (by simp)
        simpa using this.1
      have hl : ((first :: rest).get ⟨rest.length, by simp⟩).2.1 = f + rest.length + 1 := by
        have := hch rest.length (by simp)
        simpa using this.2
      have hfr : f + rest.length + 1 = f + (first :: rest).length := by
        simp only [List.length_cons]
        omega
      refine ⟨?_, ?_, ?_⟩
      · show centerS (ss.getD first.1 default) = _
        rw [hf]
      · show centerS (ss.getD ((first :: rest).get ⟨rest.length, by simp⟩).2.1 default) = _
        rw [hl, hfr]
      · have := qdiv1000_pos.mp hcond.2
        show centerS (ss.getD first.1 default) <
          centerS (ss.getD ((first :: rest).get ⟨rest.length, by simp⟩).2.1 default)
        omega

/-- The chainer's loop keeps the emitted blocks strictly well-formed,
pairwise non-overlapping and in time order: `g` is the index of the silence
whose center bounds every already-emitted block's end (the seed of the
current chain, or the previous silence when no chain is open). -/
theorem detect_go_sorted (ss : List SilenceSegment) (hwf : WfSilences ss) :
    ∀ (rest : List SilenceSegment) (i : Nat) (chain : List (Nat × Nat × Bool))
      (prev : Range) (blocks : List CmBlock) (g : Nat),
    1 ≤ i → i + rest.length = ss.length →
    (chain = [] ∧ g + 1 = i ∨ chain ≠ [] ∧ ChainFrom g chain ∧ g + chain.length + 1 = i) →
    (∀ b ∈ blocks, b.start_ms < b.end_ms) →
    blocksOrdered blocks →
    (∀ b ∈ blocks, b.end_ms ≤ centerS (ss.getD g default)) →
    (∀ b ∈ detect_go ss rest i chain prev blocks, b.start_ms < b.end_ms) ∧
    blocksOrdered (detect_go ss rest i chain prev blocks) := by
  intro rest
  induction rest with
  | nil =>
    intro i chain prev blocks g hi hlen hg hwfb hord hbound
    rw [detect_go]
    rcases hg with ⟨hce, hgi⟩ | ⟨hcne, hcf, hgi⟩
    · subst hce
      rw [try_make_nil]
      simpa using ⟨hwfb, hord⟩
    · cases htm : try_make_block_range_based chain ss with
      | none => simpa using ⟨hwfb, hord⟩
      | some b =>
        obtain ⟨hbs, hbe, hblt⟩ := try_make_endpoints hcf htm
        constructor
        · intro b' hb'
          rcases List.mem_append.mp hb' with h | h
          · exact hwfb b' h
          · simp at h
            rw [h]
            exact hblt
        · show List.Pairwise _ (blocks ++ (some b).toList)
          rw [Option.toList_some, List.pairwise_append]
          refine ⟨hord, by simp, ?_⟩
          intro x hx y hy
          simp at hy
          rw [hy, hbs]
          exact hbound x hx
  | cons curr rest' ih =>
    intro i chain prev blocks g hi hlen hg hwfb hord hbound
    have hilen : i < ss.length := by simp at hlen; omega
    have hlen' : (i + 1) + rest'.length = ss.length := by simp at hlen; omega
    have hgi : g < i := by rcases hg with ⟨_, h⟩ | ⟨_, _, h⟩ <;> omega
    have hemitwf : ∀ b' ∈ blocks ++ (try_make_block_range_based chain ss).toList,
        b'.start_ms < b'.end_ms := by
      intro b' hb'
      rcases List.mem_append.mp hb' with h | h
      · exact hwfb b' h
      · have htm := mem_toList_try_make h
        rcases hg with ⟨hce, _⟩ | ⟨hcne, hcf, _⟩
        · rw [hce, try_make_nil] at htm
          exact absurd htm (by simp)
        · exact (try_make_endpoints hcf htm).2.2
    have hemitord : blocksOrdered (blocks ++ (try_make_block_range_based chain ss).toList) := by
      rcases hg with ⟨hce, _⟩ | ⟨hcne, hcf, hgl⟩
      · rw [hce, try_make_nil]
        simpa using hord
      · cases htm : try_make_block_range_based chain ss with
        | none => simpa using hord
        | some b =>
          obtain ⟨hbs, hbe, hblt⟩ := try_make_endpoints hcf htm
          show List.Pairwise _ (blocks ++ (some b).toList)
          rw [Option.toList_some, List.pairwise_append]
          refine ⟨hord, by simp, ?_⟩
          intro x hx y hy
          simp at hy
          rw [hy, hbs]
          exact hbound x hx
    have hemitbound : ∀ b' ∈ blocks ++ (try_make_block_range_based chain ss).toList,
        b'.end_ms ≤ centerS (ss.getD i default) := by
      intro b' hb'
      rcases List.mem_append.mp hb' with h | h
      · exact le_trans (hbound b' h) (centers_mono hwf (by omega) hilen)
      · have htm := mem_toList_try_make h
        rcases hg with ⟨hce, _⟩ | ⟨hcne, hcf, hgl⟩
        · rw [hce, try_make_nil] at htm
          exact absurd htm (by simp)
        · obtain ⟨hbs, hbe, hblt⟩ := try_make_endpoints hcf htm
          rw [hbe]
          exact centers_mono hwf (by omega) hilen
    have hglen : g + chain.length + 1 = i := by
      rcases hg with ⟨hce, h⟩ | ⟨_, _, h⟩
      · subst hce
        simpa using h
      · exact h
    simp only [detect_go]
    split
    · exact ih (i + 1) [] (rangeOf curr)
        (blocks ++ (try_make_block_range_based chain ss).toList) i
        (by omega) hlen' (Or.inl ⟨rfl, rfl⟩) hemitwf hemitord hemitbound
    · split
      · refine ih (i + 1) _ _ blocks g (by omega) hlen' ?_ hwfb hord hbound
        refine Or.inr ⟨by simp, ?_, by
          simp only [List.length_append, List.length_cons, List.length_nil]
          omega⟩
        rcases hg with ⟨hce, hgi'⟩ | ⟨hcne, hcf, hgl⟩
        · subst hce
          intro k hk
          have hk0 : k = 0 := by simpa using hk
          subst hk0
          constructor
          · show i - 1 = g + 0
            omega
          · show i = g + 0 + 1
            omega
        · have h1 : i - 1 = g + chain.length := by omega
          have h4 : i = g + chain.length + 1 := by omega
          rw [h1, h4]
          exact ChainFrom_append _ hcf
      · exact ih (i + 1) [] (rangeOf curr)
          (blocks ++ (try_make_block_range_based chain ss).toList) i
          (by omega) hlen' (Or.inl ⟨rfl, rfl⟩) hemitwf hemitord hemitbound

theorem detect_sorted (ss : List SilenceSegment) (hwf : WfSilences ss) :
    (∀ b ∈ detect_blocks_range_based ss, b.start_ms < b.end_ms) ∧
    blocksOrdered (detect_blocks_range_based ss) := by
  cases ss with
  | nil => exact ⟨by simp [detect_blocks_range_based], by simp [detect_blocks_range_based, blocksOrdered]⟩
  | cons s0 rest =>
    rw [detect_blocks_range_based.eq_def]
    split
    · exact ⟨by simp, by simp [blocksOrdered]⟩
    · exact detect_go_sorted (s0 :: rest) hwf rest 1 [] (rangeOf s0) [] 0
        le_rfl (by simp only [List.length_cons]; omega) (Or.inl ⟨rfl, rfl⟩)
        (by simp) (by simp [blocksOrdered]) (by simp)

theorem merge_go_sorted (ss : List SilenceSegment) :
    ∀ (rest : List CmBlock) (cur : CmBlock) (merged : List CmBlock),
    (∀ b ∈ merged ++ cur :: rest, b.start_ms < b.end_ms) →
    blocksOrdered (merged ++ cur :: rest) →
    (∀ b ∈ merge_go ss cur rest merged, b.start_ms < b.end_ms) ∧
    blocksOrdered (merge_go ss cur rest merged) := by
  intro rest
  induction rest with
  | nil =>
    intro cur merged hwfb hord
    rw [merge_go]
    exact ⟨hwfb, hord⟩
  | cons next rest' ih =>
    intro cur merged hwfb hord
    have hord' : List.Pairwise (fun a b => a.end_ms ≤ b.start_ms) (merged ++ cur :: next :: rest') := hord
    rw [List.pairwise_append] at hord'
    obtain ⟨hordm, hordr, hcross⟩ := hord'
    have hcn : cur.end_ms ≤ next.start_ms := List.rel_of_pairwise_cons hordr (by simp)
    have hnr : ∀ x ∈ rest', next.end_ms ≤ x.start_ms :=
      fun x hx => List.rel_of_pairwise_cons (List.Pairwise.of_cons hordr) hx
    have hordr' : List.Pairwise (fun a b => a.end_ms ≤ b.start_ms) rest' :=
      (List.Pairwise.of_cons (List.Pairwise.of_cons hordr))
    rw [merge_go]
    split
    · apply ih (merge_two cur next) merged
      · intro b hb
        rcases List.mem_append.mp hb with h | h
        · exact hwfb b (List.mem_append_left _ h)
        · rcases List.mem_cons.mp h with rfl | h'
          · show (merge_two cur next).start_ms < (merge_two cur next).end_ms
            have h1 : cur.start_ms < cur.end_ms :=
              hwfb cur (List.mem_append_right _ (by simp))
            have h2 : next.start_ms < next.end_ms :=
              hwfb next (List.mem_append_right _ (by simp))
            show cur.start_ms < next.end_ms
            omega
          · exact hwfb b (List.mem_append_right _ (by simp [h']))
      · show List.Pairwise _ (merged ++ merge_two cur next :: rest')
        rw [List.pairwise_append]
        refine ⟨hordm, ?_, ?_⟩
        · refine List.Pairwise.cons ?_ hordr'
          intro x hx
          show next.end_ms ≤ x.start_ms
          exact hnr x hx
        · intro x hx y hy
          rcases List.mem_cons.mp hy with rfl | hy'
          · show x.end_ms ≤ cur.start_ms
            exact hcross x hx cur (by simp)
          · exact hcross x hx y (by simp [hy'])
    · apply ih next (merged ++ [cur])
      · intro b hb
        rw [List.append_assoc] at hb
        exact hwfb b (by simpa using hb)
      · show List.Pairwise _ ((merged ++ [cur]) ++ next :: rest')
        rw [List.append_assoc, List.pairwise_append]
        exact ⟨hordm, hordr, by simpa using hcross⟩

theorem merge_sorted (ss : List SilenceSegment) (blocks : List CmBlock)
    (hwfb : ∀ b ∈ blocks, b.start_ms < b.end_ms)
    (hord : blocksOrdered blocks) :
    (∀ b ∈ merge_blocks_with_short_units blocks ss, b.start_ms < b.end_ms) ∧
    blocksOrdered (merge_blocks_with_short_units blocks ss) := by
  match blocks, hwfb, hord with
  | [], _, _ =>
    exact ⟨by simp [merge_blocks_with_short_units], by
      simp [merge_blocks_with_short_units, blocksOrdered]⟩
  | [b0], hwfb, hord =>
    exact ⟨by simpa [merge_blocks_with_short_units] using hwfb, by
      simpa [merge_blocks_with_short_units] using hord⟩
  | b0 :: b1 :: rest, hwfb, hord =>
    have h := merge_go_sorted ss (b1 :: rest) b0 [] (by simpa using hwfb)
      (by simpa [blocksOrdered] using hord)
    exact h

/-- C4 (amended): for well-formed input (silences sorted and pairwise
disjoint, as the probe emits them), the blocks produced by the chainer and
preserved by the merge pass are strictly well-formed, pairwise
non-overlapping and sorted by `start_ms`.  The boundary-extension pass can
move adjacent blocks' edges across the same short gaps and break the
non-overlap property of the final output (see the counterexample), so the
invariant holds only up to the merge stage. -/
theorem chainer_merge_sorted_nonoverlapping (ss : List SilenceSegment)
    (hwf : WfSilences ss) :
    (∀ b ∈ merge_blocks_with_short_units (detect_blocks_range_based ss) ss,
      b.start_ms < b.end_ms) ∧
    blocksOrdered (merge_blocks_with_short_units (detect_blocks_range_based ss) ss) ∧
    List.Pairwise (fun a b => a.start_ms ≤ b.start_ms)
      (merge_blocks_with_short_units (detect_blocks_range_based ss) ss) := by
  obtain ⟨hd1, hd2⟩ := detect_sorted ss hwf
  obtain ⟨hm1, hm2⟩ := merge_sorted ss (detect_blocks_range_based ss) hd1 hd2
  refine ⟨hm1, hm2, ?_⟩
  refine List.Pairwise.imp_of_mem ?_ hm2
  intro a b ha hb hab
  have := hm1 a ha
  omega

/-! Machinery for C3: the code's gap (from the carried `prev_range`) versus
the spec's gap (from the seeding silence). -/

theorem intersect_point {r t v : Range} (hr : r.start = r.stop)
    (h : r.intersect t = some v) : v = r := by
  simp only [Range.intersect] at h
  split at h
  case isTrue hle =>
    have hv := (Option.some.inj h).symm
    rw [hv]
    show Range.new (max r.start t.start) (min r.stop t.stop) = r
    have h1 : max r.start t.start = r.start := by omega
    have h2 : min r.stop t.stop = r.stop := by omega
    rw [h1, h2]
    rfl
  case isFalse => exact absurd h (by simp)

theorem rangeOf_point {s : SilenceSegment} (h : s.start_ms = s.end_ms) :
    (rangeOf s).start = (rangeOf s).stop := h

/-- On point silences the two gap conventions coincide step by step: the
carried `prev_range` always collapses back to the current silence's (point)
range, so its center is the seeding silence's center. -/
theorem detect_spec_gap_go_points (ss : List SilenceSegment) :
    ∀ (rest : List SilenceSegment) (i : Nat) (chain : List (Nat × Nat × Bool))
      (prevs : SilenceSegment) (blocks : List CmBlock),
    (∀ s ∈ rest, s.start_ms = s.end_ms) →
    prevs.start_ms = prevs.end_ms →
    detect_go ss rest i chain (rangeOf prevs) blocks =
      detect_spec_gap_go ss rest i chain (rangeOf prevs) prevs blocks := by
  intro rest
  induction rest with
  | nil =>
    intro i chain prevs blocks hpt hp
    rw [detect_go, detect_spec_gap_go]
  | cons curr rest' ih =>
    intro i chain prevs blocks hpt hp
    have hcp : curr.start_ms = curr.end_ms := hpt curr (by simp)
    have hpt' : ∀ s ∈ rest', s.start_ms = s.end_ms :=
      fun s hs => hpt s (List.mem_cons_of_mem curr hs)
    simp only [detect_go, detect_spec_gap_go]
    split
    · exact ih (i + 1) [] curr _ hpt' hcp
    · split
      · rename_i valid_range heq
        have hval : valid_range = rangeOf curr := by
          rcases hstd : (rangeOf curr).intersect
              (std_target_range (rangeOf prevs) _) with _ | v1
          · rw [hstd] at heq
            simp only [Option.or] at heq
            split at heq
            · exact intersect_point (rangeOf_point hcp) heq
            · exact absurd heq (by simp)
          · rw [hstd] at heq
            simp only [Option.or] at heq
            rw [← Option.some.inj heq]
            exact intersect_point (rangeOf_point hcp) hstd
        rw [hval]
        exact ih (i + 1) _ curr blocks hpt' hcp
      · exact ih (i + 1) [] curr _ hpt' hcp

/-- C3 (amended): the chainer's coarse gap is computed from the center of
the carried `prev_range` (which after an accepted hop is the narrowed
intersection), not from the silence that seeded it; when every silence is a
single point the carried range always equals the seeding silence's range,
and then the code and the spec's description produce identical output. -/
theorem detect_spec_gap_agrees_on_points (ss : List SilenceSegment)
    (hpt : ∀ s ∈ ss, s.start_ms = s.end_ms) :
    detect_blocks_range_based ss = detect_blocks_spec_gap ss := by
  cases ss with
  | nil => rfl
  | cons s0 rest =>
    rw [detect_blocks_range_based.eq_def, detect_blocks_spec_gap.eq_def]
    split
    · rfl
    · exact detect_spec_gap_go_points (s0 :: rest) rest 1 [] s0 []
        (fun s hs => hpt s (List.mem_cons_of_mem s0 hs)) (hpt s0 (by simp))

section RatEvalC

attribute [local semireducible] Rat.add Rat.mul Rat.sub Rat.inv

/-- C3 counterexample: on `exC3` the detector's output differs from the
output of the variant that computes the coarse gap from the seeding
silence's own full range, so the gap is not
`center(curr) - center(prev silence)`: after the accepted first hop the
carried `prev_range` is the narrowed intersection `[14500, 15500]` (center
15000) while the seeding silence's center is 8000, and the third silence is
accepted by the code (gap 75.6 s, five units) but rejected by the
spec-worded variant (gap 82.6 s, above the five-unit cutoff). -/
theorem detect_gap_differs_from_seed_silence_gap :
    detect_blocks_range_based exC3 ≠ detect_blocks_spec_gap exC3 := by decide

/-- C3 witness: the agreement theorem applied to a concrete list of point
silences. -/
theorem detect_spec_gap_agrees_on_points_witness :
    detect_blocks_range_based exPts = detect_blocks_spec_gap exPts :=
  detect_spec_gap_agrees_on_points exPts (by decide)

/-- C4 counterexample: on `exC4` the full pipeline (chainer, merge,
boundary extension, final filter) outputs two blocks that overlap: the
extension pass walks each block's edge across the same two 5 s bumper
gaps, pushing the first block's end (88000) past the second block's start
(75000). -/
theorem pipeline_blocks_overlap :
    ¬ List.Pairwise (fun a b => a.end_ms ≤ b.start_ms) (run_pipeline exC4) := by
  decide

/-- C4 witness: the sortedness/non-overlap theorem applied to `exBasic`. -/
theorem chainer_merge_sorted_nonoverlapping_witness :
    (∀ b ∈ merge_blocks_with_short_units (detect_blocks_range_based exBasic) exBasic,
      b.start_ms < b.end_ms) ∧
    blocksOrdered (merge_blocks_with_short_units (detect_blocks_range_based exBasic) exBasic) ∧
    List.Pairwise (fun a b => a.start_ms ≤ b.start_ms)
      (merge_blocks_with_short_units (detect_blocks_range_based exBasic) exBasic) :=
  chainer_merge_sorted_nonoverlapping exBasic ⟨by decide, List.chain'_iff_get.mpr (by decide)⟩

end RatEvalC

/-! Machinery for C5: the serialized shape of the output record. -/

theorem segmentObjs_serialize (o : OutputJson) :
    segmentObjs (serialize_OutputJson o) =
      (o.cm_blocks.map serialize_CmBlock).flatMap (fun bj =>
        match getField bj "segments" with
        | some (Json.jarr segs) => segs
        | _ => []) := rfl

theorem segsOf_serialize_CmBlock (b : CmBlock) :
    (match getField (serialize_CmBlock b) "segments" with
     | some (Json.jarr segs) => segs
     | _ => []) = b.segments.map serialize_CmCandidate := rfl

/-- C5 (amended): every segment object in the serialized output record has
exactly the four keys `start_ms`, `end_ms`, `duration_sec` and
`is_standard`, in declaration order: the derived serializer emits the
internal `is_standard` flag along with the three public fields. -/
theorem serialized_segment_keys (o : OutputJson) :
    ∀ j ∈ segmentObjs (serialize_OutputJson o),
      objKeys j = ["start_ms", "end_ms", "duration_sec", "is_standard"] := by
  intro j hj
  rw [segmentObjs_serialize] at hj
  rw [List.mem_flatMap] at hj
  obtain ⟨bj, hbj, hjin⟩ := hj
  rw [List.mem_map] at hbj
  obtain ⟨b, hb, rfl⟩ := hbj
  rw [segsOf_serialize_CmBlock] at hjin
  rw [List.mem_map] at hjin
  obtain ⟨c, hc, rfl⟩ := hjin
  rfl

/-- C5 witness: the key-list theorem applied to the serialization of a
concrete record. -/
theorem serialized_segment_keys_witness :
    objKeys (serialize_CmCandidate segW) =
      ["start_ms", "end_ms", "duration_sec", "is_standard"] :=
  serialized_segment_keys outW (serialize_CmCandidate segW) (List.mem_cons_self _ _)

/-- C8: in a chainer step over well-formed ranges, if the center-to-center
gap passes the short-unit test then the step's combined match (standard
intersection or short-unit fallback) is non-empty, whatever the expected
standard interval was: the short target is built from the actual gap and
always contains the current range's center, so a short-unit gap never
closes the chain. -/
theorem short_unit_gap_never_breaks_chain (prev_range curr_range : Range)
    (expected_ms : Int)
    (hp : prev_range.start ≤ prev_range.stop)
    (hc : curr_range.start ≤ curr_range.stop)
    (hshort : is_short_unit (((centerR curr_range - centerR prev_range : Int) : ℚ) / 1000) = true) :
    ((curr_range.intersect (std_target_range prev_range expected_ms)).or
      (if (curr_range.intersect (std_target_range prev_range expected_ms)).isNone &&
          is_short_unit (((centerR curr_range - centerR prev_range : Int) : ℚ) / 1000) then
        curr_range.intersect (short_target_range prev_range
          (round ((((centerR curr_range - centerR prev_range : Int) : ℚ) / 1000) * 1000)))
      else none)).isSome = true := by
  cases hstd : curr_range.intersect (std_target_range prev_range expected_ms) with
  | some v => rfl
  | none =>
    have hcond : (Option.isNone (none : Option Range) &&
        is_short_unit (((centerR curr_range - centerR prev_range : Int) : ℚ) / 1000)) = true := by
      rw [hshort]
      rfl
    rw [if_pos hcond]
    have hround : round ((((centerR curr_range - centerR prev_range : Int) : ℚ) / 1000) * 1000) =
        centerR curr_range - centerR prev_range := by
      rw [div_mul_cancel₀ _ (by norm_num : (1000 : ℚ) ≠ 0)]
      exact round_intCast _
    rw [hround]
    have hbc := centerR_bounds hc
    have hbp := centerR_bounds hp
    show ((none : Option Range).or (curr_range.intersect (short_target_range prev_range
      (centerR curr_range - centerR prev_range)))).isSome = true
    simp only [Range.intersect, short_target_range, Range.offset, Range.new, TOLERANCE_MS]
    rw [if_pos (by omega)]
    rfl

/-- C10: zero-byte input yields a record with no blocks, no echoed
silences and no start offset; more generally any input whose parse yields
no silence segments does. -/
theorem empty_input_empty_output :
    (main_output []).cm_blocks = [] ∧
    (main_output []).silence_segments = [] ∧
    (main_output []).start_offset_ms = none ∧
    (∀ input : List Char, parse_silence_output input = [] →
      (main_output input).cm_blocks = [] ∧
      (main_output input).silence_segments = [] ∧
      (main_output input).start_offset_ms = none) := by
  have hgen : ∀ input : List Char, parse_silence_output input = [] →
      (main_output input).cm_blocks = [] ∧
      (main_output input).silence_segments = [] ∧
      (main_output input).start_offset_ms = none := by
    intro input hparse
    simp only [main_output, hparse]
    exact ⟨rfl, rfl, rfl⟩
  exact ⟨(hgen [] rfl).1, (hgen [] rfl).2.1, (hgen [] rfl).2.2, hgen⟩

section RatEvalD

attribute [local semireducible] Rat.add Rat.mul Rat.sub Rat.inv

/-- C5 counterexample: the serialized output record built from `exBasic`
has five segment objects, none of which carries only the three public keys:
each also serializes the internal `is_standard` flag. -/
theorem serialized_segment_extra_key :
    ((segmentObjs (serialize_OutputJson (build_output exBasic))).all
      (fun j => objKeys j == ["start_ms", "end_ms", "duration_sec"])) = false ∧
    ((segmentObjs (serialize_OutputJson (build_output exBasic))).all
      (fun j => decide ("is_standard" ∈ objKeys j))) = true ∧
    (segmentObjs (serialize_OutputJson (build_output exBasic))).length = 5 := by
  exact ⟨by decide, by decide, by decide⟩

/-- C8 witness: the no-chain-break theorem applied to a point `prev_range`
at 0, a point current range at 5000 (a 5 s short-unit gap) and the
standard expectation of one 15 s unit. -/
theorem short_unit_gap_never_breaks_chain_witness :
    (((Range.new 5000 5000).intersect (std_target_range (Range.new 0 0) 15000)).or
      (if ((Range.new 5000 5000).intersect (std_target_range (Range.new 0 0) 15000)).isNone &&
          is_short_unit (((centerR (Range.new 5000 5000) - centerR (Range.new 0 0) : Int) : ℚ) / 1000) then
        (Range.new 5000 5000).intersect (short_target_range (Range.new 0 0)
          (round ((((centerR (Range.new 5000 5000) - centerR (Range.new 0 0) : Int) : ℚ) / 1000) * 1000)))
      else none)).isSome = true :=
  short_unit_gap_never_breaks_chain (Range.new 0 0) (Range.new 5000 5000) 15000
    (by decide) (by decide) (by decide)

/-- C10 witness: the empty-parse theorem applied to a non-empty input with
no silence lines. -/
theorem empty_input_empty_output_witness :
    (main_output ("abc".toList)).cm_blocks = [] ∧
    (main_output ("abc".toList)).silence_segments = [] ∧
    (main_output ("abc".toList)).start_offset_ms = none :=
  empty_input_empty_output.2.2.2 ("abc".toList) (by decide)

end RatEvalD

end CmDetectorDev

end CmDetector
